import Mathlib

/-!
Verification development for the `async-forward` repository: a duplex splice
that moves bytes from an asynchronous reader to an asynchronous writer
through a single fixed-capacity circular buffer.

The embedding follows the two source files:
- `src/buffer.rs`: the `BufferHeads` state machine, `DuplexBuffer` views.
- `src/lib.rs`: the `Forwarder` future's `poll` loop.

Machine integers (`usize`) are modelled as `Nat`; the cursor arithmetic in
the source is already modular (`% max`), so no overflow modelling is needed
beyond the explicit `%` that the source itself performs.  A Rust panic is
modelled as `Option.none`.  Byte storage (`[u8]`) is modelled as a function
`Nat → Nat` together with an explicit capacity; a borrowed slice `(start,
len)` is modelled as the pair of its start index and length.
-/

/-- `BufferHeads` from `src/buffer.rs`: indexes into a single shared buffer.
`ReadReady` = the write buffer is empty (spec: *Empty*); `WriteReady p` =
the write buffer is full (spec: *Full* at point `p`); `DuplexReady w r` =
room for both writes (from `w`) and reads (into `r`) (spec: *Partial*). -/
inductive BufferHeads where
  | ReadReady : BufferHeads
  | WriteReady (point : Nat) : BufferHeads
  | DuplexReady (write_head read_head : Nat) : BufferHeads
deriving DecidableEq

/-- `BufferHeads::advance_read`: `amount` bytes were just read into the
buffer.  Panics (modelled as `none`) on a full (`WriteReady`) buffer. -/
def advance_read (h : BufferHeads) (amount max : Nat) : Option BufferHeads :=
  match (match h with
    | .ReadReady => some ((0 : Nat), (0 : Nat))
    | .WriteReady _ => none
    | .DuplexReady write_head read_head => some (read_head, write_head)) with
  | none => none
  | some (read_head, write_head) =>
    let read_head := (read_head + amount) % max
    if read_head = write_head then some (.WriteReady write_head)
    else some (.DuplexReady write_head read_head)

/-- `BufferHeads::advance_write`: `amount` bytes were just written out of the
buffer.  Panics (modelled as `none`) on an empty (`ReadReady`) buffer. -/
def advance_write (h : BufferHeads) (amount max : Nat) : Option BufferHeads :=
  match (match h with
    | .ReadReady => none
    | .WriteReady point => some (point, point)
    | .DuplexReady write_head read_head => some (write_head, read_head)) with
  | none => none
  | some (write_head, read_head) =>
    let write_head := (write_head + amount) % max
    if write_head = read_head then some .ReadReady
    else some (.DuplexReady write_head read_head)

/-- `BufferHeads::read_ready`. -/
def read_ready : BufferHeads → Bool
  | .ReadReady => true
  | .WriteReady _ => false
  | .DuplexReady _ _ => true

/-- `BufferHeads::write_ready`. -/
def write_ready : BufferHeads → Bool
  | .ReadReady => false
  | .WriteReady _ => true
  | .DuplexReady _ _ => true

/-- `Buffers` from `src/buffer.rs`: a pair of pairs of slices, each slice
modelled as `(start, len)` into the shared storage. -/
structure Buffers where
  read : (Nat × Nat) × (Nat × Nat)
  write : (Nat × Nat) × (Nat × Nat)

/-- `split_thrice`: split a buffer of length `cap` into 3 slices at the given
points, after sorting the two points. -/
def split_thrice (cap point1 point2 : Nat) : (Nat × Nat) × (Nat × Nat) × (Nat × Nat) :=
  let p := if point1 ≤ point2 then (point1, point2) else (point2, point1)
  ((0, p.1), (p.1, p.2 - p.1), (p.2, cap - p.2))

/-- `DuplexBuffer::get_buffers`, abstracted over the storage length `cap`
(the source calls `self.buffer.as_mut()` and slices it; here only the
`(start, len)` geometry of the resulting slices is computed). -/
def get_buffers (cap : Nat) (heads : BufferHeads) : Buffers :=
  match heads with
  | .ReadReady => ⟨((0, cap), (0, 0)), ((0, 0), (0, 0))⟩
  | .WriteReady point => ⟨((0, 0), (0, 0)), ((point, cap - point), (0, point))⟩
  | .DuplexReady write_head read_head =>
    let t := split_thrice cap write_head read_head
    if write_head < read_head then ⟨(t.2.2, t.1), (t.2.1, (0, 0))⟩
    else ⟨(t.2.1, (0, 0)), (t.2.2, t.1)⟩

/-- `pair_len` from `src/buffer.rs`: total length of a slice pair. -/
def pair_len (p : (Nat × Nat) × (Nat × Nat)) : Nat := p.1.2 + p.2.2

/-- The list of storage indices covered by a slice `(start, len)`. -/
def segIdx (s : Nat × Nat) : List Nat := (List.range s.2).map fun i => s.1 + i

/-- The indices covered by a slice pair, in traversal order. -/
def pairIdx (p : (Nat × Nat) × (Nat × Nat)) : List Nat := segIdx p.1 ++ segIdx p.2

/-- The bytes of a slice pair, read out of the storage in traversal order. -/
def pairBytes (storage : Nat → Nat) (p : (Nat × Nat) × (Nat × Nat)) : List Nat :=
  (pairIdx p).map storage

/-- Overwrite the slice `s` of the storage with (a prefix of) `data`, as a
vectored read does when it fills one `IoSliceMut`. -/
def setSeg (storage : Nat → Nat) (s : Nat × Nat) (data : List Nat) : Nat → Nat :=
  fun j => if s.1 ≤ j ∧ j < s.1 + min s.2 data.length then data.getD (j - s.1) 0 else storage j

/-- Vectored write of `data` into a slice pair: fill the first slice, then
spill the remainder into the second. -/
def setPair (storage : Nat → Nat) (p : (Nat × Nat) × (Nat × Nat)) (data : List Nat) : Nat → Nat :=
  setSeg (setSeg storage p.1 (data.take p.1.2)) p.2 (data.drop p.1.2)

/-- Well-formedness of a head state over storage of length `cap`: every
cursor is reduced modulo `cap`, and a `DuplexReady` state has distinct
cursors (equal cursors are represented by `ReadReady`/`WriteReady`). -/
def wfB (cap : Nat) : BufferHeads → Bool
  | .ReadReady => true
  | .WriteReady point => point < cap
  | .DuplexReady write_head read_head =>
    write_head < cap && read_head < cap && write_head ≠ read_head

/-- `ForwarderError` from `src/lib.rs` (the wrapped `io::Error` payloads are
dropped; only the tag matters for the verified properties). -/
inductive ForwarderError where
  | Read : ForwarderError
  | Write : ForwarderError
  | WriteClosedEarly : ForwarderError
deriving DecidableEq

/-- One response of the readable endpoint to `poll_read_vectored`:
`Pending`, a `WouldBlock` error, an `Interrupted` error, any other (fatal)
error, or `Ready(Ok(n))` carrying the `n` bytes placed into the given
buffers (`chunk []` is `Ok(0)`, end of input). -/
inductive ReadResp where
  | pending : ReadResp
  | wouldBlock : ReadResp
  | interrupted : ReadResp
  | fatal : ReadResp
  | chunk (data : List Nat) : ReadResp
deriving DecidableEq

/-- One response of the writable endpoint to `poll_write_vectored`:
`accepted n` is `Ready(Ok(n))` (`n = 0` means the sink closed early). -/
inductive WriteResp where
  | pending : WriteResp
  | wouldBlock : WriteResp
  | interrupted : WriteResp
  | fatal : WriteResp
  | accepted (n : Nat) : WriteResp
deriving DecidableEq

/-- Result of one `Forwarder::poll`: `Pending` with the wake flag (whether
`cx.waker().wake_by_ref()` was called), or `Ready` with the final result
(`none` = `Ok(())`). -/
inductive PollOut where
  | Pending (wake : Bool) : PollOut
  | Ready (result : Option ForwarderError) : PollOut
deriving DecidableEq

/-- The `Forwarder` future's state: `reader` is `self.reader.is_some()`,
`cap`/`storage` model the backing byte slice, `heads` the `DuplexBuffer`
head state.  `readLog` and `writeLog` are ghost observation logs: every
byte ever returned by the reader, resp. ever accepted by the writer, in
order. -/
structure Fwd where
  reader : Bool
  cap : Nat
  storage : Nat → Nat
  heads : BufferHeads
  readLog : List Nat
  writeLog : List Nat

/-- `Forwarder::new`: reader present, fresh `DuplexBuffer` (default heads =
`ReadReady`), empty logs. -/
def Fwd.init (cap : Nat) (storage : Nat → Nat) : Fwd :=
  ⟨true, cap, storage, .ReadReady, [], []⟩

/-- The read half of `Forwarder::poll` (lines 71–109 of `src/lib.rs`).
Returns `none` if the endpoint response violates the I/O contract (more
bytes than the provided buffers hold) or the buffer code would panic;
otherwise `some (.error e)` for an early error return, or `some (.ok (st,
read_ready_flag))`. -/
def readPhase (st : Fwd) (rr : ReadResp) : Option (Except ForwarderError (Fwd × Bool)) :=
  if st.reader then
    let bufs := get_buffers st.cap st.heads
    if 0 < pair_len bufs.read then
      match rr with
      | .pending => some (.ok (st, false))
      | .wouldBlock => some (.ok (st, false))
      | .chunk data =>
        if data.length ≤ pair_len bufs.read then
          match data with
          | [] => some (.ok ({ st with reader := false }, false))
          | _ :: _ =>
            match advance_read st.heads data.length st.cap with
            | none => none
            | some h => some (.ok ({ st with
                storage := setPair st.storage bufs.read data,
                heads := h,
                readLog := st.readLog ++ data }, true))
        else none
      | .interrupted => some (.ok (st, true))
      | .fatal => some (.error .Read)
    else some (.ok (st, false))
  else some (.ok (st, false))

/-- The write half of `Forwarder::poll` (lines 111–147 of `src/lib.rs`),
with the same conventions as `readPhase`. -/
def writePhase (st : Fwd) (wr : WriteResp) : Option (Except ForwarderError (Fwd × Bool)) :=
  let bufs := get_buffers st.cap st.heads
  if 0 < pair_len bufs.write then
    match wr with
    | .pending => some (.ok (st, false))
    | .wouldBlock => some (.ok (st, false))
    | .accepted n =>
      if n = 0 then some (.error .WriteClosedEarly)
      else if n ≤ pair_len bufs.write then
        match advance_write st.heads n st.cap with
        | none => none
        | some h => some (.ok ({ st with
            heads := h,
            writeLog := st.writeLog ++ (pairBytes st.storage bufs.write).take n }, true))
      else none
    | .interrupted => some (.ok (st, true))
    | .fatal => some (.error .Write)
  else some (.ok (st, false))

/-- `Forwarder::poll`: one read attempt, one write attempt (on re-derived
buffers), the completion check, then the wake decision. -/
def poll (st : Fwd) (rr : ReadResp) (wr : WriteResp) : Option (Fwd × PollOut) :=
  match readPhase st rr with
  | none => none
  | some (.error e) => some (st, .Ready (some e))
  | some (.ok (st1, rflag)) =>
    match writePhase st1 wr with
    | none => none
    | some (.error e) => some (st1, .Ready (some e))
    | some (.ok (st2, wflag)) =>
      if !st2.reader && !(write_ready st2.heads) then
        some (st2, .Ready none)
      else
        some (st2, .Pending ((wflag && write_ready st2.heads) ||
                             (rflag && read_ready st2.heads)))

/-- Drive the future through a list of scheduling ticks, each tick supplying
the two endpoint responses; stop at the first `Ready` (an executor does not
poll a completed future).  Result: final state, plus `some r` if the future
returned `Ready r`, or `none` if it is still pending. -/
def run (st : Fwd) : List (ReadResp × WriteResp) → Option (Fwd × Option (Option ForwarderError))
  | [] => some (st, none)
  | (rr, wr) :: rest =>
    match poll st rr wr with
    | none => none
    | some (st1, .Ready r) => some (st1, some r)
    | some (st1, .Pending _) => run st1 rest

/-- Decidable projection of a `run` outcome: reader flag, heads, the two
ghost logs, and the terminal result. -/
def runView (st : Fwd) (ticks : List (ReadResp × WriteResp)) :
    Option ((Bool × BufferHeads × List Nat × List Nat) × Option (Option ForwarderError)) :=
  (run st ticks).map fun s => ((s.1.reader, s.1.heads, s.1.readLog, s.1.writeLog), s.2)

/-! ### Segment index lemmas -/

/-- The bytes currently buffered (filled view contents). -/
def filledOf (st : Fwd) : List Nat := pairBytes st.storage (get_buffers st.cap st.heads).write

/-- The forwarding invariant: the head state is well formed, and everything
ever read splits into everything ever written followed by what is still
buffered. -/
def FwdInv (st : Fwd) : Prop :=
  wfB st.cap st.heads = true ∧ st.readLog = st.writeLog ++ filledOf st

def c1Ticks : List (ReadResp × WriteResp) :=
  [(.chunk [5, 6], .accepted 2), (.chunk [], .pending)]

def c1St : Fwd :=
  ⟨false, 2, setPair (fun _ => 0) ((0, 2), (0, 0)) [5, 6], .ReadReady, [5, 6], [5, 6]⟩

/-- Head states reachable from the initial `ReadReady` state by advance
operations that respect their preconditions (positive amount bounded by the
corresponding view's length). -/
inductive Reachable (cap : Nat) : BufferHeads → Prop where
  | init : Reachable cap .ReadReady
  | read : ∀ (h h' : BufferHeads) (a : Nat), Reachable cap h → 0 < a →
      a ≤ pair_len (get_buffers cap h).read → advance_read h a cap = some h' →
      Reachable cap h'
  | write : ∀ (h h' : BufferHeads) (a : Nat), Reachable cap h → 0 < a →
      a ≤ pair_len (get_buffers cap h).write → advance_write h a cap = some h' →
      Reachable cap h'

/-- The code's logical cursor pair `(read-in cursor, write-out cursor)`:
both 0 in the empty state, both at `point` in the full state. -/
def readCursors : BufferHeads → Nat × Nat
  | .ReadReady => (0, 0)
  | .WriteReady point => (point, point)
  | .DuplexReady write_head read_head => (read_head, write_head)

/-- Follows the spec's words: length of the free arc — the whole capacity
when *Empty*, zero when *Full*, otherwise the forward circular distance from
the read-in cursor to the write-out cursor. -/
def freeArcLen (cap : Nat) : BufferHeads → Nat
  | .ReadReady => cap
  | .WriteReady _ => 0
  | .DuplexReady write_head read_head => (write_head + cap - read_head) % cap

/-- Follows the spec's words: the free view as the circular arc starting at
the read-in cursor, of length `freeArcLen`. -/
def freeArc (cap : Nat) (h : BufferHeads) (σ : Nat → Nat) : List Nat :=
  (List.range (freeArcLen cap h)).map fun i => σ (((readCursors h).1 + i) % cap)

/-- Follows the spec's words: length of the filled arc — zero when *Empty*,
the whole capacity when *Full*, otherwise the forward circular distance from
the write-out cursor to the read-in cursor. -/
def filledArcLen (cap : Nat) : BufferHeads → Nat
  | .ReadReady => 0
  | .WriteReady _ => cap
  | .DuplexReady write_head read_head => (read_head + cap - write_head) % cap

/-- Follows the spec's words: the filled view as the circular arc starting
at the write-out cursor, of length `filledArcLen`. -/
def filledArc (cap : Nat) (h : BufferHeads) (σ : Nat → Nat) : List Nat :=
  (List.range (filledArcLen cap h)).map fun i => σ (((readCursors h).2 + i) % cap)

def c6St : Fwd := ⟨false, 1, fun _ => 0, .ReadReady, [], []⟩

def c7St : Fwd := ⟨true, 2, fun _ => 7, .WriteReady 0, [7, 7], []⟩

def c8St : Fwd := ⟨true, 1, fun _ => 0, .ReadReady, [], []⟩

def c9Ticks1 : List (ReadResp × WriteResp) := [(.chunk [1, 2, 3, 4], .pending)]

def c9Ticks2 : List (ReadResp × WriteResp) :=
  [(.chunk [1, 2, 3, 4], .pending), (.chunk [], .accepted 4)]

def c9Ticks3 : List (ReadResp × WriteResp) :=
  [(.chunk [1, 2, 3, 4], .pending), (.chunk [], .accepted 4), (.chunk [], .pending)]

def c9St1 : Fwd :=
  ⟨true, 4, setPair (fun _ => 0) ((0, 4), (0, 0)) [1, 2, 3, 4], .WriteReady 0, [1, 2, 3, 4], []⟩

theorem length_segIdx (s : Nat × Nat) : (segIdx s).length = s.2 := by
  simp [segIdx]

theorem length_pairIdx (p : (Nat × Nat) × (Nat × Nat)) :
    (pairIdx p).length = pair_len p := by
  simp [pairIdx, pair_len, length_segIdx]

theorem mem_segIdx {j : Nat} {s : Nat × Nat} :
    j ∈ segIdx s ↔ s.1 ≤ j ∧ j < s.1 + s.2 := by
  simp only [segIdx, List.mem_map, List.mem_range]
  constructor
  · rintro ⟨i, hi, rfl⟩; omega
  · rintro ⟨h1, h2⟩; exact ⟨j - s.1, by omega, by omega⟩

theorem mem_pairIdx {j : Nat} {p : (Nat × Nat) × (Nat × Nat)} :
    j ∈ pairIdx p ↔ (p.1.1 ≤ j ∧ j < p.1.1 + p.1.2) ∨ (p.2.1 ≤ j ∧ j < p.2.1 + p.2.2) := by
  simp [pairIdx, List.mem_append, mem_segIdx]

theorem segIdx_split (s k l : Nat) (hk : k ≤ l) :
    segIdx (s, l) = segIdx (s, k) ++ segIdx (s + k, l - k) := by
  apply List.ext_getElem
  · simp only [segIdx, List.length_map, List.length_range, List.length_append]
    omega
  · intro n h1 h2
    simp only [segIdx, List.getElem_append, List.length_map, List.length_range,
      List.getElem_map, List.getElem_range]
    split <;> omega

theorem take_segIdx (s l c : Nat) : (segIdx (s, l)).take c = segIdx (s, min c l) := by
  rw [segIdx, ← List.map_take, List.take_range]
  rfl

theorem drop_segIdx (s l c : Nat) : (segIdx (s, l)).drop c = segIdx (s + c, l - c) := by
  rcases Nat.le_total c l with hc | hc
  · rw [segIdx_split s c l hc, List.drop_append_eq_append_drop, length_segIdx]
    simp [List.drop_eq_nil_of_le, length_segIdx]
  · rw [List.drop_eq_nil_of_le (by simp [length_segIdx, hc])]
    have : l - c = 0 := by omega
    simp [this, segIdx]

theorem segIdx_zero (s : Nat) : segIdx (s, 0) = [] := by simp [segIdx]

/-! ### Explicit forms of `get_buffers` -/

theorem gb_RR (cap : Nat) :
    get_buffers cap .ReadReady = ⟨((0, cap), (0, 0)), ((0, 0), (0, 0))⟩ := rfl

theorem gb_WR (cap p : Nat) :
    get_buffers cap (.WriteReady p) = ⟨((0, 0), (0, 0)), ((p, cap - p), (0, p))⟩ := rfl

theorem gb_DX_lt (cap w r : Nat) (h : w < r) :
    get_buffers cap (.DuplexReady w r) =
      ⟨((r, cap - r), (0, w)), ((w, r - w), (0, 0))⟩ := by
  simp [get_buffers, split_thrice, Nat.le_of_lt h, h]

theorem gb_DX_gt (cap w r : Nat) (h : r < w) :
    get_buffers cap (.DuplexReady w r) =
      ⟨((r, w - r), (0, 0)), ((w, cap - w), (0, r))⟩ := by
  have h1 : ¬ w ≤ r := by omega
  have h2 : ¬ w < r := by omega
  simp [get_buffers, split_thrice, h1, h2]

/-! ### Disjointness of the free and filled views -/

theorem read_write_idx_disjoint {cap : Nat} {h : BufferHeads} (hw : wfB cap h = true) :
    ∀ j, j ∈ pairIdx (get_buffers cap h).read → j ∈ pairIdx (get_buffers cap h).write → False := by
  intro j hr hwj
  cases h with
  | ReadReady =>
    rw [gb_RR] at hwj
    rw [mem_pairIdx] at hwj
    simp at hwj
  | WriteReady p =>
    rw [gb_WR] at hr
    rw [mem_pairIdx] at hr
    simp at hr
  | DuplexReady w r =>
    simp only [wfB, Bool.and_eq_true, decide_eq_true_eq, bne_iff_ne, ne_eq] at hw
    rcases Nat.lt_or_ge w r with hlt | hge
    · rw [gb_DX_lt cap w r hlt] at hr hwj
      rw [mem_pairIdx] at hr hwj
      simp only at hr hwj
      omega
    · have hgt : r < w := by
        rcases Nat.lt_or_ge r w with h1 | h1
        · exact h1
        · exfalso; exact hw.2 (by omega)
      rw [gb_DX_gt cap w r hgt] at hr hwj
      rw [mem_pairIdx] at hr hwj
      simp only at hr hwj
      omega

/-- The two slices of the read (free) view never interleave: the second
slice ends at or before the start of the first. -/
theorem read_segs_ordered (cap : Nat) (h : BufferHeads) :
    (get_buffers cap h).read.2.1 + (get_buffers cap h).read.2.2 ≤ (get_buffers cap h).read.1.1 := by
  cases h with
  | ReadReady => simp [gb_RR]
  | WriteReady p => simp [gb_WR]
  | DuplexReady w r =>
    rcases Nat.lt_or_ge w r with hlt | hge
    · rw [gb_DX_lt cap w r hlt]; simpa using Nat.le_of_lt hlt
    · rcases Nat.eq_or_lt_of_le hge with heq | hgt
      · simp [get_buffers, split_thrice, heq]
      · rw [gb_DX_gt cap w r hgt]; simp

/-! ### Storage update lemmas -/

theorem setSeg_outside {storage : Nat → Nat} {s : Nat × Nat} {d : List Nat} {j : Nat}
    (hj : ¬ (s.1 ≤ j ∧ j < s.1 + s.2)) : setSeg storage s d j = storage j := by
  rw [setSeg, if_neg]
  intro hc
  exact hj ⟨hc.1, by have := Nat.min_le_left s.2 d.length; omega⟩

theorem setPair_outside {storage : Nat → Nat} {p : (Nat × Nat) × (Nat × Nat)} {d : List Nat}
    {j : Nat} (h1 : ¬ (p.1.1 ≤ j ∧ j < p.1.1 + p.1.2)) (h2 : ¬ (p.2.1 ≤ j ∧ j < p.2.1 + p.2.2)) :
    setPair storage p d j = storage j := by
  rw [setPair, setSeg_outside h2, setSeg_outside h1]

theorem getD_range_self (d : List Nat) :
    (List.range d.length).map (fun i => d.getD i 0) = d := by
  apply List.ext_getElem
  · simp
  · intro n h1 h2
    simp only [List.getElem_map, List.getElem_range]
    exact List.getD_eq_getElem d 0 h2

/-- Reading the first `d.length` positions of a slice pair back out of the
storage, after the vectored write of `d` into that pair, recovers `d`
exactly — provided the two slices do not interleave (the second ends before
the first begins) and `d` fits. -/
theorem setPair_readback {storage : Nat → Nat} {p : (Nat × Nat) × (Nat × Nat)} {d : List Nat}
    (hord : p.2.1 + p.2.2 ≤ p.1.1) (hlen : d.length ≤ pair_len p) :
    ((pairIdx p).take d.length).map (setPair storage p d) = d := by
  obtain ⟨⟨s1, l1⟩, ⟨s2, l2⟩⟩ := p
  simp only [pair_len] at hlen
  simp only at hord
  rw [pairIdx, List.take_append_eq_append_take, length_segIdx, take_segIdx, take_segIdx,
    List.map_append]
  have hmin2 : min (d.length - l1) l2 = d.length - l1 := Nat.min_eq_left (by omega)
  rw [hmin2]
  have part1 : (segIdx (s1, min d.length l1)).map (setPair storage ((s1, l1), (s2, l2)) d) =
      (List.range (min d.length l1)).map (fun i => d.getD i 0) := by
    rw [segIdx, List.map_map]
    apply List.map_congr_left
    intro i hi
    rw [List.mem_range] at hi
    simp only [Function.comp, setPair, setSeg, List.length_take, List.length_drop]
    rw [if_neg (by omega), if_pos (by constructor <;> omega)]
    have hsub : s1 + i - s1 = i := by omega
    rw [hsub]
    have h2 : i < (d.take l1).length := by simp; omega
    rw [List.getD_eq_getElem _ _ h2, List.getD_eq_getElem _ _ (by omega)]
    simp [List.getElem_take]
  have part2 : (segIdx (s2, d.length - l1)).map (setPair storage ((s1, l1), (s2, l2)) d) =
      (List.range (d.length - l1)).map (fun i => d.getD (l1 + i) 0) := by
    rw [segIdx, List.map_map]
    apply List.map_congr_left
    intro i hi
    rw [List.mem_range] at hi
    simp only [Function.comp, setPair, setSeg, List.length_take, List.length_drop]
    rw [if_pos (by constructor <;> omega)]
    have hsub : s2 + i - s2 = i := by omega
    rw [hsub]
    have h2 : i < (d.drop l1).length := by simp; omega
    rw [List.getD_eq_getElem _ _ h2, List.getD_eq_getElem _ _ (by omega)]
    simp [List.getElem_drop]
  rw [part1, part2]
  rcases Nat.le_total d.length l1 with hcl | hcl
  · have hm : min d.length l1 = d.length := Nat.min_eq_left hcl
    have hz : d.length - l1 = 0 := by omega
    rw [hm, hz]
    simp only [List.range_zero, List.map_nil, List.append_nil]
    exact getD_range_self d
  · have hm : min d.length l1 = l1 := Nat.min_eq_right hcl
    rw [hm]
    have hsplit : List.range d.length =
        List.range l1 ++ (List.range (d.length - l1)).map (fun i => l1 + i) := by
      have hdl : d.length = l1 + (d.length - l1) := by omega
      conv_lhs => rw [hdl]
      rw [List.range_add]
    calc (List.range l1).map (fun i => d.getD i 0) ++
          (List.range (d.length - l1)).map (fun i => d.getD (l1 + i) 0)
        = (List.range l1).map (fun i => d.getD i 0) ++
          ((List.range (d.length - l1)).map (fun i => l1 + i)).map (fun i => d.getD i 0) := by
          rw [List.map_map]
          rfl
      _ = (List.range d.length).map (fun i => d.getD i 0) := by rw [hsplit, List.map_append]
      _ = d := getD_range_self d

/-! ### Head-transition lemmas at the index level -/

theorem wfB_DX {cap w r : Nat} (hw : wfB cap (.DuplexReady w r) = true) :
    w < cap ∧ r < cap ∧ w ≠ r := by
  have h := hw
  simp [wfB] at h
  exact ⟨h.1.1, h.1.2, h.2⟩

theorem advance_read_DX (cap w r c : Nat) :
    advance_read (.DuplexReady w r) c cap =
      if (r + c) % cap = w then some (.WriteReady w)
      else some (.DuplexReady w ((r + c) % cap)) := rfl

theorem advance_read_RR (cap c : Nat) :
    advance_read .ReadReady c cap =
      if (0 + c) % cap = 0 then some (.WriteReady 0)
      else some (.DuplexReady 0 ((0 + c) % cap)) := rfl

theorem advance_write_DX (cap w r n : Nat) :
    advance_write (.DuplexReady w r) n cap =
      if (w + n) % cap = r then some .ReadReady
      else some (.DuplexReady ((w + n) % cap) r) := rfl

theorem advance_write_WR (cap p n : Nat) :
    advance_write (.WriteReady p) n cap =
      if (p + n) % cap = p then some .ReadReady
      else some (.DuplexReady ((p + n) % cap) p) := rfl

/-- Advancing the read-in cursor by `c` (with `c` bounded by the free view)
extends the filled view's index arc by exactly the first `c` indices of the
free view, in circular traversal order. -/
theorem advance_read_writeIdx {cap : Nat} {h h' : BufferHeads} {c : Nat}
    (hw : wfB cap h = true) (hc : 0 < c)
    (hle : c ≤ pair_len (get_buffers cap h).read)
    (hadv : advance_read h c cap = some h') :
    pairIdx (get_buffers cap h').write =
      pairIdx (get_buffers cap h).write ++ (pairIdx (get_buffers cap h).read).take c := by
  cases h with
  | WriteReady p => simp [advance_read] at hadv
  | ReadReady =>
    rw [gb_RR] at hle
    simp only [pair_len] at hle
    have hcap : 0 < cap := by omega
    rw [advance_read_RR] at hadv
    rcases Nat.lt_or_ge c cap with hlt | hge
    · have hmod : (0 + c) % cap = c := by rw [Nat.zero_add]; exact Nat.mod_eq_of_lt hlt
      rw [hmod, if_neg (by omega)] at hadv
      injection hadv with hh
      subst hh
      rw [gb_RR, gb_DX_lt cap 0 c (by omega)]
      simp only [pairIdx, segIdx_zero, List.append_nil, List.nil_append]
      rw [take_segIdx]
      have he : c - 0 = min c cap := by omega
      rw [he]
    · have hceq : c = cap := by omega
      subst hceq
      have hmod : (0 + c) % c = 0 := by rw [Nat.zero_add]; exact Nat.mod_self c
      rw [hmod, if_pos rfl] at hadv
      injection hadv with hh
      subst hh
      rw [gb_RR, gb_WR]
      simp only [pairIdx, segIdx_zero, List.append_nil, List.nil_append]
      rw [take_segIdx]
      have he : c - 0 = min c c := by omega
      rw [he]
  | DuplexReady w r =>
    obtain ⟨hwc, hrc, hwr⟩ := wfB_DX hw
    rw [advance_read_DX] at hadv
    rcases Nat.lt_or_ge w r with hlt | hge
    · rw [gb_DX_lt cap w r hlt] at hle
      simp only [pair_len] at hle
      rcases Nat.lt_or_ge (r + c) cap with hnw | hwrap
      · have hmod : (r + c) % cap = r + c := Nat.mod_eq_of_lt hnw
        rw [hmod, if_neg (by omega)] at hadv
        injection hadv with hh
        subst hh
        rw [gb_DX_lt cap w r hlt, gb_DX_lt cap w (r + c) (by omega)]
        simp only [pairIdx, segIdx_zero, List.append_nil]
        rw [List.take_append_eq_append_take, length_segIdx, take_segIdx, take_segIdx]
        have h1 : min c (cap - r) = c := by omega
        have h2 : min (c - (cap - r)) w = 0 := by omega
        rw [h1, h2, segIdx_zero, List.append_nil]
        rw [segIdx_split w (r - w) (r + c - w) (by omega)]
        have e1 : w + (r - w) = r := by omega
        have e2 : r + c - w - (r - w) = c := by omega
        rw [e1, e2]
      · have hmod : (r + c) % cap = r + c - cap := by
          rw [Nat.mod_eq_sub_mod hwrap]
          exact Nat.mod_eq_of_lt (by omega)
        by_cases hcol : r + c - cap = w
        · rw [hmod, if_pos hcol] at hadv
          injection hadv with hh
          subst hh
          rw [gb_DX_lt cap w r hlt, gb_WR]
          simp only [pairIdx, segIdx_zero, List.append_nil]
          rw [List.take_append_eq_append_take, length_segIdx, take_segIdx, take_segIdx]
          have h1 : min c (cap - r) = cap - r := by omega
          have h2 : min (c - (cap - r)) w = w := by omega
          rw [h1, h2, ← List.append_assoc]
          apply congrArg (· ++ segIdx (0, w))
          rw [segIdx_split w (r - w) (cap - w) (by omega)]
          have e1 : w + (r - w) = r := by omega
          have e2 : cap - w - (r - w) = cap - r := by omega
          rw [e1, e2]
        · rw [hmod, if_neg hcol] at hadv
          injection hadv with hh
          subst hh
          have hlt2 : r + c - cap < w := by omega
          rw [gb_DX_lt cap w r hlt, gb_DX_gt cap w (r + c - cap) hlt2]
          simp only [pairIdx, segIdx_zero, List.append_nil]
          rw [List.take_append_eq_append_take, length_segIdx, take_segIdx, take_segIdx]
          have h1 : min c (cap - r) = cap - r := by omega
          have h2 : min (c - (cap - r)) w = c - (cap - r) := by omega
          rw [h1, h2, ← List.append_assoc]
          have e3 : r + c - cap = c - (cap - r) := by omega
          rw [e3]
          apply congrArg (· ++ segIdx (0, c - (cap - r)))
          rw [segIdx_split w (r - w) (cap - w) (by omega)]
          have e1 : w + (r - w) = r := by omega
          have e2 : cap - w - (r - w) = cap - r := by omega
          rw [e1, e2]
    · have hgt : r < w := by omega
      rw [gb_DX_gt cap w r hgt] at hle
      simp only [pair_len] at hle
      have hmod : (r + c) % cap = r + c := Nat.mod_eq_of_lt (by omega)
      by_cases hcol : r + c = w
      · rw [hmod, if_pos hcol] at hadv
        injection hadv with hh
        subst hh
        rw [gb_DX_gt cap w r hgt, gb_WR]
        simp only [pairIdx, segIdx_zero, List.append_nil]
        rw [take_segIdx]
        have h1 : min c (w - r) = w - r := by omega
        rw [h1, List.append_assoc]
        apply congrArg (segIdx (w, cap - w) ++ ·)
        rw [segIdx_split 0 r w (by omega)]
        have e1 : 0 + r = r := by omega
        have e2 : w - r = w - r := rfl
        rw [e1]
      · rw [hmod, if_neg hcol] at hadv
        injection hadv with hh
        subst hh
        have hlt2 : r + c < w := by omega
        rw [gb_DX_gt cap w r hgt, gb_DX_gt cap w (r + c) hlt2]
        simp only [pairIdx, segIdx_zero, List.append_nil]
        rw [take_segIdx]
        have h1 : min c (w - r) = c := by omega
        rw [h1, List.append_assoc]
        apply congrArg (segIdx (w, cap - w) ++ ·)
        rw [segIdx_split 0 r (r + c) (by omega)]
        have e1 : 0 + r = r := by omega
        have e2 : r + c - r = c := by omega
        rw [e1, e2]

/-- Advancing the write-out cursor by `n` (bounded by the filled view)
drops exactly the first `n` indices of the filled view's index arc. -/
theorem advance_write_writeIdx {cap : Nat} {h h' : BufferHeads} {n : Nat}
    (hw : wfB cap h = true) (hn : 0 < n)
    (hle : n ≤ pair_len (get_buffers cap h).write)
    (hadv : advance_write h n cap = some h') :
    pairIdx (get_buffers cap h').write = (pairIdx (get_buffers cap h).write).drop n := by
  cases h with
  | ReadReady => simp [advance_write] at hadv
  | WriteReady p =>
    have hpc : p < cap := by simpa [wfB] using hw
    rw [gb_WR] at hle
    simp only [pair_len] at hle
    rw [advance_write_WR] at hadv
    rcases Nat.lt_or_ge n cap with hlt | hge
    · rcases Nat.lt_or_ge (p + n) cap with hnw | hwrap
      · have hmod : (p + n) % cap = p + n := Nat.mod_eq_of_lt hnw
        rw [hmod, if_neg (by omega)] at hadv
        injection hadv with hh
        subst hh
        rw [gb_WR, gb_DX_gt cap (p + n) p (by omega)]
        simp only [pairIdx]
        rw [List.drop_append_eq_append_drop, length_segIdx, drop_segIdx, drop_segIdx]
        have e1 : cap - p - n = cap - (p + n) := by omega
        have e2 : n - (cap - p) = 0 := by omega
        rw [e1, e2]
        simp
      · have hmod : (p + n) % cap = p + n - cap := by
          rw [Nat.mod_eq_sub_mod hwrap]
          exact Nat.mod_eq_of_lt (by omega)
        rw [hmod, if_neg (by omega)] at hadv
        injection hadv with hh
        subst hh
        rw [gb_WR, gb_DX_lt cap (p + n - cap) p (by omega)]
        simp only [pairIdx]
        rw [List.drop_append_eq_append_drop, length_segIdx, drop_segIdx, drop_segIdx]
        have e1 : cap - p - n = 0 := by omega
        have e2 : p + n = p + n - cap + cap := by omega
        have e3 : 0 + (n - (cap - p)) = p + n - cap := by omega
        have e4 : p - (n - (cap - p)) = p - (p + n - cap) := by omega
        rw [e1, e3, e4]
        rw [show (p + n, (0 : Nat)) = (p + n, 0) from rfl]
        simp [segIdx]
    · have hneq : n = cap := by omega
      subst hneq
      have hmod : (p + n) % n = p := by
        rw [Nat.add_mod_right]
        exact Nat.mod_eq_of_lt hpc
      rw [hmod, if_pos rfl] at hadv
      injection hadv with hh
      subst hh
      rw [gb_WR, gb_RR]
      simp only [pairIdx, segIdx_zero, List.append_nil, List.nil_append]
      rw [List.drop_eq_nil_of_le]
      simp only [List.length_append, length_segIdx]
      omega
  | DuplexReady w r =>
    obtain ⟨hwc, hrc, hwr⟩ := wfB_DX hw
    rw [advance_write_DX] at hadv
    rcases Nat.lt_or_ge w r with hlt | hge
    · rw [gb_DX_lt cap w r hlt] at hle
      simp only [pair_len] at hle
      have hmod : (w + n) % cap = w + n := Nat.mod_eq_of_lt (by omega)
      by_cases hcol : w + n = r
      · rw [hmod, if_pos hcol] at hadv
        injection hadv with hh
        subst hh
        rw [gb_DX_lt cap w r hlt, gb_RR]
        simp only [pairIdx, segIdx_zero, List.append_nil, List.nil_append]
        rw [List.drop_eq_nil_of_le]
        rw [length_segIdx]
        omega
      · rw [hmod, if_neg hcol] at hadv
        injection hadv with hh
        subst hh
        have hlt2 : w + n < r := by omega
        rw [gb_DX_lt cap w r hlt, gb_DX_lt cap (w + n) r hlt2]
        simp only [pairIdx, segIdx_zero, List.append_nil]
        rw [drop_segIdx]
        have e1 : r - w - n = r - (w + n) := by omega
        rw [e1]
    · have hgt : r < w := by omega
      rw [gb_DX_gt cap w r hgt] at hle
      simp only [pair_len] at hle
      rcases Nat.lt_or_ge (w + n) cap with hnw | hwrap
      · have hmod : (w + n) % cap = w + n := Nat.mod_eq_of_lt hnw
        rw [hmod, if_neg (by omega)] at hadv
        injection hadv with hh
        subst hh
        rw [gb_DX_gt cap w r hgt, gb_DX_gt cap (w + n) r (by omega)]
        simp only [pairIdx]
        rw [List.drop_append_eq_append_drop, length_segIdx, drop_segIdx, drop_segIdx]
        have e1 : cap - w - n = cap - (w + n) := by omega
        have e2 : n - (cap - w) = 0 := by omega
        rw [e1, e2]
        simp
      · have hmod : (w + n) % cap = w + n - cap := by
          rw [Nat.mod_eq_sub_mod hwrap]
          exact Nat.mod_eq_of_lt (by omega)
        by_cases hcol : w + n - cap = r
        · rw [hmod, if_pos hcol] at hadv
          injection hadv with hh
          subst hh
          rw [gb_DX_gt cap w r hgt, gb_RR]
          simp only [pairIdx, segIdx_zero, List.append_nil, List.nil_append]
          rw [List.drop_eq_nil_of_le]
          simp only [List.length_append, length_segIdx]
          omega
        · rw [hmod, if_neg hcol] at hadv
          injection hadv with hh
          subst hh
          have hlt2 : w + n - cap < r := by omega
          rw [gb_DX_gt cap w r hgt, gb_DX_lt cap (w + n - cap) r hlt2]
          simp only [pairIdx, segIdx_zero, List.append_nil]
          rw [List.drop_append_eq_append_drop, length_segIdx, drop_segIdx, drop_segIdx]
          have e1 : cap - w - n = 0 := by omega
          have e3 : 0 + (n - (cap - w)) = w + n - cap := by omega
          have e4 : r - (n - (cap - w)) = r - (w + n - cap) := by omega
          rw [e1, e3, e4]
          simp [segIdx]

/-! ### Well-formedness preservation -/

theorem advance_read_wf {cap : Nat} {h h' : BufferHeads} {c : Nat}
    (hcap : 0 < cap) (hw : wfB cap h = true)
    (hadv : advance_read h c cap = some h') : wfB cap h' = true := by
  cases h with
  | WriteReady p => simp [advance_read] at hadv
  | ReadReady =>
    rw [advance_read_RR] at hadv
    split at hadv <;> injection hadv with hh <;> subst hh
    · simpa [wfB] using hcap
    · rename_i hne
      have hmlt : (0 + c) % cap < cap := Nat.mod_lt _ hcap
      simp only [wfB, Bool.and_eq_true, decide_eq_true_eq]
      exact ⟨⟨hcap, hmlt⟩, fun he => hne he.symm⟩
  | DuplexReady w r =>
    obtain ⟨hwc, hrc, hwr⟩ := wfB_DX hw
    rw [advance_read_DX] at hadv
    split at hadv <;> injection hadv with hh <;> subst hh
    · simpa [wfB] using hwc
    · rename_i hne
      have hmlt : (r + c) % cap < cap := Nat.mod_lt _ hcap
      simp only [wfB, Bool.and_eq_true, decide_eq_true_eq]
      exact ⟨⟨hwc, hmlt⟩, fun he => hne he.symm⟩

theorem advance_write_wf {cap : Nat} {h h' : BufferHeads} {n : Nat}
    (hcap : 0 < cap) (hw : wfB cap h = true)
    (hadv : advance_write h n cap = some h') : wfB cap h' = true := by
  cases h with
  | ReadReady => simp [advance_write] at hadv
  | WriteReady p =>
    have hpc : p < cap := by simpa [wfB] using hw
    rw [advance_write_WR] at hadv
    split at hadv <;> injection hadv with hh <;> subst hh
    · simp [wfB]
    · rename_i hne
      have hmlt : (p + n) % cap < cap := Nat.mod_lt _ hcap
      simp only [wfB, Bool.and_eq_true, decide_eq_true_eq]
      exact ⟨⟨hmlt, hpc⟩, hne⟩
  | DuplexReady w r =>
    obtain ⟨hwc, hrc, hwr⟩ := wfB_DX hw
    rw [advance_write_DX] at hadv
    split at hadv <;> injection hadv with hh <;> subst hh
    · simp [wfB]
    · rename_i hne
      have hmlt : (w + n) % cap < cap := Nat.mod_lt _ hcap
      simp only [wfB, Bool.and_eq_true, decide_eq_true_eq]
      exact ⟨⟨hmlt, hrc⟩, hne⟩

theorem cap_pos_of_read_len {cap : Nat} {h : BufferHeads} (hw : wfB cap h = true)
    (hl : 0 < pair_len (get_buffers cap h).read) : 0 < cap := by
  cases h with
  | ReadReady =>
    rw [gb_RR] at hl
    simpa [pair_len] using hl
  | WriteReady p =>
    have : p < cap := by simpa [wfB] using hw
    omega
  | DuplexReady w r =>
    have := (wfB_DX hw).1
    omega

theorem cap_pos_of_write_len {cap : Nat} {h : BufferHeads} (hw : wfB cap h = true)
    (hl : 0 < pair_len (get_buffers cap h).write) : 0 < cap := by
  cases h with
  | ReadReady =>
    rw [gb_RR] at hl
    simp [pair_len] at hl
  | WriteReady p =>
    have : p < cap := by simpa [wfB] using hw
    omega
  | DuplexReady w r =>
    have := (wfB_DX hw).1
    omega

/-! ### Byte-level transfer lemmas -/

/-- A successful read of `d` into the free view extends the filled view's
bytes by exactly `d`: nothing already buffered is disturbed, and the new
bytes land after it in traversal order. -/
theorem read_extends_filled {cap : Nat} {h h' : BufferHeads} {σ : Nat → Nat} {d : List Nat}
    (hw : wfB cap h = true) (hd : 0 < d.length)
    (hle : d.length ≤ pair_len (get_buffers cap h).read)
    (hadv : advance_read h d.length cap = some h') :
    pairBytes (setPair σ (get_buffers cap h).read d) (get_buffers cap h').write =
      pairBytes σ (get_buffers cap h).write ++ d := by
  rw [pairBytes, advance_read_writeIdx hw hd hle hadv, List.map_append]
  congr 1
  · apply List.map_congr_left
    intro j hj
    apply setPair_outside
    · intro hcon
      exact read_write_idx_disjoint hw j (mem_pairIdx.mpr (Or.inl hcon)) hj
    · intro hcon
      exact read_write_idx_disjoint hw j (mem_pairIdx.mpr (Or.inr hcon)) hj
  · exact setPair_readback (read_segs_ordered cap h) hle

/-- A successful write of `n` bytes out of the filled view drops exactly the
first `n` buffered bytes; the storage itself is untouched. -/
theorem write_drops_filled {cap : Nat} {h h' : BufferHeads} {σ : Nat → Nat} {n : Nat}
    (hw : wfB cap h = true) (hn : 0 < n)
    (hle : n ≤ pair_len (get_buffers cap h).write)
    (hadv : advance_write h n cap = some h') :
    pairBytes σ (get_buffers cap h').write = (pairBytes σ (get_buffers cap h).write).drop n := by
  rw [pairBytes, advance_write_writeIdx hw hn hle hadv, List.map_drop]
  rfl

/-! ### The forwarding invariant -/

theorem init_inv (cap : Nat) (σ : Nat → Nat) : FwdInv (Fwd.init cap σ) := by
  constructor
  · rfl
  · simp [Fwd.init, filledOf, pairBytes, pairIdx, get_buffers, segIdx]

theorem readPhase_inv {st st1 : Fwd} {rr : ReadResp} {f : Bool}
    (hI : FwdInv st) (hp : readPhase st rr = some (.ok (st1, f))) : FwdInv st1 := by
  simp only [readPhase] at hp
  split at hp
  · split at hp
    · rename_i hlen
      split at hp
      · simp only [Option.some.injEq, Except.ok.injEq, Prod.mk.injEq] at hp
        obtain ⟨rfl, -⟩ := hp
        exact hI
      · simp only [Option.some.injEq, Except.ok.injEq, Prod.mk.injEq] at hp
        obtain ⟨rfl, -⟩ := hp
        exact hI
      · rename_i data
        split at hp
        · rename_i hdl
          split at hp
          · simp only [Option.some.injEq, Except.ok.injEq, Prod.mk.injEq] at hp
            obtain ⟨rfl, -⟩ := hp
            exact hI
          · rename_i a as
            split at hp
            · simp at hp
            · rename_i h2 hadv
              simp only [Option.some.injEq, Except.ok.injEq, Prod.mk.injEq] at hp
              obtain ⟨rfl, -⟩ := hp
              have hcap : 0 < st.cap := cap_pos_of_read_len hI.1 hlen
              constructor
              · exact advance_read_wf hcap hI.1 hadv
              · show st.readLog ++ (a :: as) =
                  st.writeLog ++ pairBytes
                    (setPair st.storage (get_buffers st.cap st.heads).read (a :: as))
                    (get_buffers st.cap h2).write
                have hI2 : st.readLog =
                    st.writeLog ++ pairBytes st.storage (get_buffers st.cap st.heads).write :=
                  hI.2
                rw [read_extends_filled hI.1 (by simp) hdl hadv, hI2, List.append_assoc]
        · simp at hp
      · simp only [Option.some.injEq, Except.ok.injEq, Prod.mk.injEq] at hp
        obtain ⟨rfl, -⟩ := hp
        exact hI
      · simp at hp
    · simp only [Option.some.injEq, Except.ok.injEq, Prod.mk.injEq] at hp
      obtain ⟨rfl, -⟩ := hp
      exact hI
  · simp only [Option.some.injEq, Except.ok.injEq, Prod.mk.injEq] at hp
    obtain ⟨rfl, -⟩ := hp
    exact hI

theorem writePhase_inv {st st1 : Fwd} {wr : WriteResp} {f : Bool}
    (hI : FwdInv st) (hp : writePhase st wr = some (.ok (st1, f))) : FwdInv st1 := by
  simp only [writePhase] at hp
  split at hp
  · rename_i hlen
    split at hp
    · simp only [Option.some.injEq, Except.ok.injEq, Prod.mk.injEq] at hp
      obtain ⟨rfl, -⟩ := hp
      exact hI
    · simp only [Option.some.injEq, Except.ok.injEq, Prod.mk.injEq] at hp
      obtain ⟨rfl, -⟩ := hp
      exact hI
    · rename_i n
      split at hp
      · simp at hp
      · rename_i hn0
        split at hp
        · rename_i hnle
          split at hp
          · simp at hp
          · rename_i h2 hadv
            simp only [Option.some.injEq, Except.ok.injEq, Prod.mk.injEq] at hp
            obtain ⟨rfl, -⟩ := hp
            have hcap : 0 < st.cap := cap_pos_of_write_len hI.1 hlen
            constructor
            · exact advance_write_wf hcap hI.1 hadv
            · show st.readLog =
                (st.writeLog ++ (pairBytes st.storage (get_buffers st.cap st.heads).write).take n)
                  ++ pairBytes st.storage (get_buffers st.cap h2).write
              rw [write_drops_filled hI.1 (by omega) hnle hadv, List.append_assoc,
                List.take_append_drop]
              exact hI.2
        · simp at hp
    · simp only [Option.some.injEq, Except.ok.injEq, Prod.mk.injEq] at hp
      obtain ⟨rfl, -⟩ := hp
      exact hI
    · simp at hp
  · simp only [Option.some.injEq, Except.ok.injEq, Prod.mk.injEq] at hp
    obtain ⟨rfl, -⟩ := hp
    exact hI

theorem poll_inv {st st' : Fwd} {rr : ReadResp} {wr : WriteResp} {out : PollOut}
    (hI : FwdInv st) (hp : poll st rr wr = some (st', out)) : FwdInv st' := by
  simp only [poll] at hp
  split at hp
  · simp at hp
  · rename_i e heq
    simp only [Option.some.injEq, Prod.mk.injEq] at hp
    obtain ⟨rfl, -⟩ := hp
    exact hI
  · rename_i st1 rflag heq
    have hI1 : FwdInv st1 := readPhase_inv hI heq
    split at hp
    · simp at hp
    · rename_i e heq2
      simp only [Option.some.injEq, Prod.mk.injEq] at hp
      obtain ⟨rfl, -⟩ := hp
      exact hI1
    · rename_i st2 wflag heq2
      have hI2 : FwdInv st2 := writePhase_inv hI1 heq2
      split at hp <;>
        · simp only [Option.some.injEq, Prod.mk.injEq] at hp
          obtain ⟨rfl, -⟩ := hp
          exact hI2

theorem run_inv {ticks : List (ReadResp × WriteResp)} {st st' : Fwd}
    {out : Option (Option ForwarderError)}
    (hI : FwdInv st) (hr : run st ticks = some (st', out)) : FwdInv st' := by
  induction ticks generalizing st with
  | nil =>
    simp only [run, Option.some.injEq, Prod.mk.injEq] at hr
    obtain ⟨rfl, -⟩ := hr
    exact hI
  | cons t rest ih =>
    obtain ⟨rr, wr⟩ := t
    simp only [run] at hr
    split at hr
    · simp at hr
    · rename_i st1 r heq
      simp only [Option.some.injEq, Prod.mk.injEq] at hr
      obtain ⟨rfl, -⟩ := hr
      exact poll_inv hI heq
    · rename_i st1 wk heq
      exact ih (poll_inv hI heq) hr

/-- When `poll` returns `Ready(Ok(()))` the reader is gone and the head
state is `ReadReady` (buffer empty), so the filled view is empty. -/
theorem poll_ok_empty {st st' : Fwd} {rr : ReadResp} {wr : WriteResp}
    (hp : poll st rr wr = some (st', .Ready none)) :
    st'.reader = false ∧ st'.heads = .ReadReady := by
  simp only [poll] at hp
  split at hp
  · simp at hp
  · simp only [Option.some.injEq, Prod.mk.injEq] at hp
    exact absurd hp.2 (by simp)
  · rename_i st1 rflag heq
    split at hp
    · simp at hp
    · simp only [Option.some.injEq, Prod.mk.injEq] at hp
      exact absurd hp.2 (by simp)
    · rename_i st2 wflag heq2
      split at hp
      · rename_i hcond
        simp only [Option.some.injEq, Prod.mk.injEq] at hp
        obtain ⟨rfl, -⟩ := hp
        simp only [Bool.and_eq_true, Bool.not_eq_true'] at hcond
        refine ⟨hcond.1, ?_⟩
        have hwr := hcond.2
        cases hh : st2.heads <;> rw [hh] at hwr <;> simp [write_ready] at hwr
      · simp only [Option.some.injEq, Prod.mk.injEq] at hp
        exact absurd hp.2 (by simp)

/-- The filled view of a `ReadReady` (empty) head state holds no bytes. -/
theorem filledOf_RR {st : Fwd} (hh : st.heads = .ReadReady) : filledOf st = [] := by
  rw [filledOf, hh, gb_RR]
  simp [pairBytes, pairIdx, segIdx]

/-- When a `run` ends in `Ready(Ok(()))`, its final head state is empty. -/
theorem run_ok_empty {ticks : List (ReadResp × WriteResp)} {st st' : Fwd}
    (hr : run st ticks = some (st', some none)) :
    st'.reader = false ∧ st'.heads = .ReadReady := by
  induction ticks generalizing st with
  | nil => simp [run] at hr
  | cons t rest ih =>
    obtain ⟨rr, wr⟩ := t
    simp only [run] at hr
    split at hr
    · simp at hr
    · rename_i st1 r heq
      simp only [Option.some.injEq, Prod.mk.injEq, Option.some.injEq] at hr
      obtain ⟨rfl, hr2⟩ := hr
      subst hr2
      exact poll_ok_empty heq
    · rename_i st1 wk heq
      exact ih hr

/-- C1: across any number of polls, the bytes delivered to the writer (in
acceptance order) form a prefix of the bytes returned by the reader (in
read order); and when the `Forwarder` completes with `Ok(())` the two are
equal — no byte lost, duplicated, or reordered, for any chunking on either
side. -/
theorem order_preservation (cap : Nat) (σ : Nat → Nat)
    (ticks : List (ReadResp × WriteResp)) (st : Fwd) (out : Option (Option ForwarderError))
    (hr : run (Fwd.init cap σ) ticks = some (st, out)) :
    (∃ t, st.writeLog ++ t = st.readLog) ∧
      (out = some none → st.writeLog = st.readLog) := by
  have hI := run_inv (init_inv cap σ) hr
  constructor
  · exact ⟨filledOf st, hI.2.symm⟩
  · intro hok
    subst hok
    have hempty := run_ok_empty hr
    have hfe : filledOf st = [] := filledOf_RR hempty.2
    have h2 := hI.2
    rw [hfe, List.append_nil] at h2
    exact h2.symm

theorem order_preservation_witness :
    (∃ t, c1St.writeLog ++ t = c1St.readLog) ∧
      ((some none : Option (Option ForwarderError)) = some none →
        c1St.writeLog = c1St.readLog) :=
  order_preservation 2 (fun _ => 0) c1Ticks c1St (some none) (by rfl)

/-! ### Reachable head states -/

theorem reachable_wf {cap : Nat} {h : BufferHeads} (hcap : 0 < cap)
    (hr : Reachable cap h) : wfB cap h = true := by
  induction hr with
  | init => rfl
  | read h h' a hr hpos hle hadv ih => exact advance_read_wf hcap ih hadv
  | write h h' a hr hpos hle hadv ih => exact advance_write_wf hcap ih hadv

theorem wf_view_sum {cap : Nat} {h : BufferHeads} (hcap : 0 < cap)
    (hw : wfB cap h = true) :
    pair_len (get_buffers cap h).read + pair_len (get_buffers cap h).write = cap := by
  cases h with
  | ReadReady =>
    rw [gb_RR]
    simp [pair_len]
  | WriteReady p =>
    have hp : p < cap := by simpa [wfB] using hw
    rw [gb_WR]
    simp only [pair_len]
    omega
  | DuplexReady w r =>
    obtain ⟨hwc, hrc, hwr⟩ := wfB_DX hw
    rcases Nat.lt_or_ge w r with hlt | hge
    · rw [gb_DX_lt cap w r hlt]
      simp only [pair_len]
      omega
    · have hgt : r < w := by omega
      rw [gb_DX_gt cap w r hgt]
      simp only [pair_len]
      omega

/-- C2: for every head state reachable by precondition-respecting advances
over storage of positive capacity, the free view's length plus the filled
view's length equals the capacity. -/
theorem reachable_free_filled_sum (cap : Nat) (h : BufferHeads) (hcap : 0 < cap)
    (hr : Reachable cap h) :
    pair_len (get_buffers cap h).read + pair_len (get_buffers cap h).write = cap :=
  wf_view_sum hcap (reachable_wf hcap hr)

theorem reachable_free_filled_sum_witness :
    pair_len (get_buffers 4 (.DuplexReady 0 2)).read +
      pair_len (get_buffers 4 (.DuplexReady 0 2)).write = 4 :=
  reachable_free_filled_sum 4 (.DuplexReady 0 2) (by decide)
    (Reachable.read .ReadReady (.DuplexReady 0 2) 2 Reachable.init (by decide) (by decide) rfl)

/-! ### Spec-side arc descriptions of the two views (for refinement) -/

theorem nowrap_bytes (σ : Nat → Nat) (cap s L : Nat) (h : s + L ≤ cap) (hc : 0 < cap) :
    (segIdx (s, L)).map σ = (List.range L).map fun i => σ ((s + i) % cap) := by
  rw [segIdx, List.map_map]
  apply List.map_congr_left
  intro i hi
  rw [List.mem_range] at hi
  simp only [Function.comp]
  rw [Nat.mod_eq_of_lt (by omega)]

theorem wrap_bytes (σ : Nat → Nat) (cap s L2 : Nat) (hs : s ≤ cap) (hL2 : L2 ≤ s)
    (hc : 0 < cap) :
    (segIdx (s, cap - s) ++ segIdx (0, L2)).map σ =
      (List.range (cap - s + L2)).map fun i => σ ((s + i) % cap) := by
  apply List.ext_getElem
  · simp [segIdx]
  · intro n h1 h2
    simp only [List.map_append, segIdx, List.map_map, List.getElem_append, List.getElem_map,
      List.getElem_range, List.length_map, List.length_range, List.length_append] at h1 ⊢
    split
    · rename_i hn
      simp only [Function.comp]
      rw [Nat.mod_eq_of_lt (by omega)]
    · rename_i hn
      simp only [Function.comp]
      have hm : (s + n) % cap = s + n - cap := by
        rw [Nat.mod_eq_sub_mod (by omega)]
        exact Nat.mod_eq_of_lt (by omega)
      rw [hm]
      apply congrArg σ
      omega

/-- The free view of `get_buffers` is exactly the spec's free arc. -/
theorem free_view_bytes {cap : Nat} {h : BufferHeads} (σ : Nat → Nat)
    (hcap : 0 < cap) (hw : wfB cap h = true) :
    pairBytes σ (get_buffers cap h).read = freeArc cap h σ := by
  cases h with
  | ReadReady =>
    rw [gb_RR]
    simp only [pairBytes, pairIdx, segIdx_zero, List.append_nil]
    rw [nowrap_bytes σ cap 0 cap (by omega) hcap]
    simp [freeArc, freeArcLen, readCursors]
  | WriteReady p =>
    rw [gb_WR]
    simp [pairBytes, pairIdx, segIdx, freeArc, freeArcLen]
  | DuplexReady w r =>
    obtain ⟨hwc, hrc, hwr⟩ := wfB_DX hw
    rcases Nat.lt_or_ge w r with hlt | hge
    · rw [gb_DX_lt cap w r hlt]
      have hlen : freeArcLen cap (.DuplexReady w r) = cap - r + w := by
        simp only [freeArcLen]
        rw [Nat.mod_eq_of_lt (by omega)]
        omega
      rw [freeArc, hlen]
      simp only [readCursors]
      rw [pairBytes, pairIdx, List.map_append]
      have := wrap_bytes σ cap r w (by omega) (by omega) hcap
      rw [List.map_append] at this
      exact this
    · have hgt : r < w := by omega
      rw [gb_DX_gt cap w r hgt]
      have hlen : freeArcLen cap (.DuplexReady w r) = w - r := by
        simp only [freeArcLen]
        rw [Nat.mod_eq_sub_mod (by omega), Nat.mod_eq_of_lt (by omega)]
        omega
      rw [freeArc, hlen]
      simp only [readCursors]
      rw [pairBytes, pairIdx, List.map_append]
      rw [segIdx_zero, List.map_nil, List.append_nil]
      exact nowrap_bytes σ cap r (w - r) (by omega) hcap

/-- The filled view of `get_buffers` is exactly the spec's filled arc. -/
theorem filled_view_bytes {cap : Nat} {h : BufferHeads} (σ : Nat → Nat)
    (hcap : 0 < cap) (hw : wfB cap h = true) :
    pairBytes σ (get_buffers cap h).write = filledArc cap h σ := by
  cases h with
  | ReadReady =>
    rw [gb_RR]
    simp [pairBytes, pairIdx, segIdx, filledArc, filledArcLen]
  | WriteReady p =>
    have hp : p < cap := by simpa [wfB] using hw
    rw [gb_WR]
    have hlen : filledArcLen cap (.WriteReady p) = cap - p + p := by
      simp only [filledArcLen]
      omega
    rw [filledArc, hlen]
    simp only [readCursors]
    rw [pairBytes, pairIdx, List.map_append]
    have := wrap_bytes σ cap p p (by omega) (by omega) hcap
    rw [List.map_append] at this
    exact this
  | DuplexReady w r =>
    obtain ⟨hwc, hrc, hwr⟩ := wfB_DX hw
    rcases Nat.lt_or_ge w r with hlt | hge
    · rw [gb_DX_lt cap w r hlt]
      have hlen : filledArcLen cap (.DuplexReady w r) = r - w := by
        simp only [filledArcLen]
        rw [Nat.mod_eq_sub_mod (by omega), Nat.mod_eq_of_lt (by omega)]
        omega
      rw [filledArc, hlen]
      simp only [readCursors]
      rw [pairBytes, pairIdx, List.map_append]
      rw [segIdx_zero, List.map_nil, List.append_nil]
      exact nowrap_bytes σ cap w (r - w) (by omega) hcap
    · have hgt : r < w := by omega
      rw [gb_DX_gt cap w r hgt]
      have hlen : filledArcLen cap (.DuplexReady w r) = cap - w + r := by
        simp only [filledArcLen]
        rw [Nat.mod_eq_of_lt (by omega)]
        omega
      rw [filledArc, hlen]
      simp only [readCursors]
      rw [pairBytes, pairIdx, List.map_append]
      have := wrap_bytes σ cap w r (by omega) (by omega) hcap
      rw [List.map_append] at this
      exact this

/-- C3: for every well-formed head state over positive capacity, the free
(read-into) view is the circular arc from the read-in cursor forward to the
write-out cursor (whole storage when empty, empty when full), the filled
(write-out) view is the complementary arc, each delivered as (at most) two
linear segments whose concatenation preserves circular traversal order, and
the two views cover disjoint storage indices. -/
theorem get_buffers_views (cap : Nat) (h : BufferHeads) (σ : Nat → Nat)
    (hcap : 0 < cap) (hw : wfB cap h = true) :
    pairBytes σ (get_buffers cap h).read = freeArc cap h σ ∧
    pairBytes σ (get_buffers cap h).write = filledArc cap h σ ∧
    ∀ j, j ∈ pairIdx (get_buffers cap h).read →
      j ∈ pairIdx (get_buffers cap h).write → False :=
  ⟨free_view_bytes σ hcap hw, filled_view_bytes σ hcap hw, read_write_idx_disjoint hw⟩

theorem get_buffers_views_witness :
    pairBytes (fun i => i + 10) (get_buffers 4 (.DuplexReady 1 3)).read =
        freeArc 4 (.DuplexReady 1 3) (fun i => i + 10) ∧
      pairBytes (fun i => i + 10) (get_buffers 4 (.DuplexReady 1 3)).write =
        filledArc 4 (.DuplexReady 1 3) (fun i => i + 10) ∧
      ∀ j, j ∈ pairIdx (get_buffers 4 (.DuplexReady 1 3)).read →
        j ∈ pairIdx (get_buffers 4 (.DuplexReady 1 3)).write → False :=
  get_buffers_views 4 (.DuplexReady 1 3) (fun i => i + 10) (by decide) (by decide)

/-- C4: on every non-full state, `advance_read` adds the amount to the
read-in cursor modulo capacity (both cursors starting at 0 from the empty
state) and collapses to the full state exactly when the advanced cursor
meets the write-out cursor; symmetrically, on every non-empty state,
`advance_write` advances the write-out cursor modulo capacity and collapses
to the empty state exactly when it catches up to the read-in cursor. -/
theorem advance_cursor_arithmetic :
    (∀ (h : BufferHeads) (a cap : Nat), (∀ p, h ≠ .WriteReady p) → 0 < a → 0 < cap →
      advance_read h a cap = some (
        if ((readCursors h).1 + a) % cap = (readCursors h).2
        then .WriteReady (readCursors h).2
        else .DuplexReady (readCursors h).2 (((readCursors h).1 + a) % cap))) ∧
    (∀ (h : BufferHeads) (a cap : Nat), h ≠ .ReadReady → 0 < a → 0 < cap →
      advance_write h a cap = some (
        if ((readCursors h).2 + a) % cap = (readCursors h).1
        then .ReadReady
        else .DuplexReady (((readCursors h).2 + a) % cap) (readCursors h).1)) := by
  constructor
  · intro h a cap hnf hpos hcap
    cases h with
    | ReadReady =>
      simp only [readCursors]
      rw [advance_read_RR]
      by_cases hcond : (0 + a) % cap = 0
      · rw [if_pos hcond, if_pos hcond]
      · rw [if_neg hcond, if_neg hcond]
    | WriteReady p => exact absurd rfl (hnf p)
    | DuplexReady w r =>
      simp only [readCursors]
      rw [advance_read_DX]
      by_cases hcond : (r + a) % cap = w
      · rw [if_pos hcond, if_pos hcond]
      · rw [if_neg hcond, if_neg hcond]
  · intro h a cap hne hpos hcap
    cases h with
    | ReadReady => exact absurd rfl hne
    | WriteReady p =>
      simp only [readCursors]
      rw [advance_write_WR]
      by_cases hcond : (p + a) % cap = p
      · rw [if_pos hcond, if_pos hcond]
      · rw [if_neg hcond, if_neg hcond]
    | DuplexReady w r =>
      simp only [readCursors]
      rw [advance_write_DX]
      by_cases hcond : (w + a) % cap = r
      · rw [if_pos hcond, if_pos hcond]
      · rw [if_neg hcond, if_neg hcond]

theorem advance_cursor_arithmetic_witness :
    advance_read .ReadReady 3 4 = some (
      if ((readCursors .ReadReady).1 + 3) % 4 = (readCursors .ReadReady).2
      then .WriteReady (readCursors .ReadReady).2
      else .DuplexReady (readCursors .ReadReady).2 (((readCursors .ReadReady).1 + 3) % 4)) ∧
    advance_write (.WriteReady 2) 1 4 = some (
      if ((readCursors (.WriteReady 2)).2 + 1) % 4 = (readCursors (.WriteReady 2)).1
      then .ReadReady
      else .DuplexReady (((readCursors (.WriteReady 2)).2 + 1) % 4)
        (readCursors (.WriteReady 2)).1) :=
  ⟨advance_cursor_arithmetic.1 .ReadReady 3 4 (by simp) (by decide) (by decide),
   advance_cursor_arithmetic.2 (.WriteReady 2) 1 4 (by simp) (by decide) (by decide)⟩

/-- C5: for every positive amount and every capacity, advancing the read-in
cursor of a full buffer, or the write-out cursor of an empty buffer, is a
fatal contract violation (a panic, modelled as `none`) — no successor state
is produced. -/
theorem advance_contract_violations (p a cap : Nat) (ha : 0 < a) :
    advance_read (.WriteReady p) a cap = none ∧ advance_write .ReadReady a cap = none :=
  ⟨rfl, rfl⟩

theorem advance_contract_violations_witness :
    advance_read (.WriteReady 2) 1 4 = none ∧ advance_write .ReadReady 1 4 = none :=
  advance_contract_violations 2 1 4 (by decide)

/-! ### Step-level facts about the poll loop -/

theorem readPhase_no_reader {st : Fwd} (h : st.reader = false) (rr : ReadResp) :
    readPhase st rr = some (.ok (st, false)) := by
  simp [readPhase, h]

theorem readPhase_reader_mono {st st1 : Fwd} {rr : ReadResp} {f : Bool}
    (hp : readPhase st rr = some (.ok (st1, f))) (h1 : st1.reader = true) :
    st.reader = true := by
  by_cases hr : st.reader = true
  · exact hr
  · have hf : st.reader = false := by
      cases hb : st.reader
      · rfl
      · exact absurd hb hr
    rw [readPhase_no_reader hf rr] at hp
    simp only [Option.some.injEq, Except.ok.injEq, Prod.mk.injEq] at hp
    obtain ⟨rfl, -⟩ := hp
    exact absurd h1 hr

theorem writePhase_reader {st st1 : Fwd} {wr : WriteResp} {f : Bool}
    (hp : writePhase st wr = some (.ok (st1, f))) : st1.reader = st.reader := by
  simp only [writePhase] at hp
  split at hp
  · split at hp
    · simp only [Option.some.injEq, Except.ok.injEq, Prod.mk.injEq] at hp
      obtain ⟨rfl, -⟩ := hp
      rfl
    · simp only [Option.some.injEq, Except.ok.injEq, Prod.mk.injEq] at hp
      obtain ⟨rfl, -⟩ := hp
      rfl
    · rename_i n
      split at hp
      · simp at hp
      · split at hp
        · split at hp
          · simp at hp
          · simp only [Option.some.injEq, Except.ok.injEq, Prod.mk.injEq] at hp
            obtain ⟨rfl, -⟩ := hp
            rfl
        · simp at hp
    · simp only [Option.some.injEq, Except.ok.injEq, Prod.mk.injEq] at hp
      obtain ⟨rfl, -⟩ := hp
      rfl
    · simp at hp
  · simp only [Option.some.injEq, Except.ok.injEq, Prod.mk.injEq] at hp
    obtain ⟨rfl, -⟩ := hp
    rfl

theorem heads_RR_of_write_len_zero {cap : Nat} {h : BufferHeads} (hcap : 0 < cap)
    (hw : wfB cap h = true) (hl : pair_len (get_buffers cap h).write = 0) :
    h = .ReadReady := by
  cases h with
  | ReadReady => rfl
  | WriteReady p =>
    have hp : p < cap := by simpa [wfB] using hw
    rw [gb_WR] at hl
    simp only [pair_len] at hl
    omega
  | DuplexReady w r =>
    obtain ⟨hwc, hrc, hwr⟩ := wfB_DX hw
    rcases Nat.lt_or_ge w r with hlt | hge
    · rw [gb_DX_lt cap w r hlt] at hl
      simp only [pair_len] at hl
      omega
    · have hgt : r < w := by omega
      rw [gb_DX_gt cap w r hgt] at hl
      simp only [pair_len] at hl
      omega

theorem writePhase_empty {st : Fwd} (hl : pair_len (get_buffers st.cap st.heads).write = 0)
    (wr : WriteResp) : writePhase st wr = some (.ok (st, false)) := by
  simp [writePhase, hl]

/-- C6: (i) the reader, once dropped at end of input, never comes back —
any poll whose successor still has a reader started with one; (ii) once the
reader is gone, the poll result never depends on the readable endpoint (no
read is attempted); (iii) a poll that starts with the reader gone and the
filled view empty returns `Ready(Ok(()))` immediately and changes nothing. -/
theorem eof_completion :
    (∀ (st st' : Fwd) (rr : ReadResp) (wr : WriteResp) (out : PollOut),
      poll st rr wr = some (st', out) → st'.reader = true → st.reader = true) ∧
    (∀ (st : Fwd) (rr rr' : ReadResp) (wr : WriteResp), st.reader = false →
      poll st rr wr = poll st rr' wr) ∧
    (∀ (st : Fwd) (rr : ReadResp) (wr : WriteResp), st.reader = false → 0 < st.cap →
      wfB st.cap st.heads = true → pair_len (get_buffers st.cap st.heads).write = 0 →
      poll st rr wr = some (st, .Ready none)) := by
  refine ⟨?_, ?_, ?_⟩
  · intro st st' rr wr out hp h1
    simp only [poll] at hp
    split at hp
    · simp at hp
    · simp only [Option.some.injEq, Prod.mk.injEq] at hp
      obtain ⟨rfl, -⟩ := hp
      exact h1
    · rename_i st1 rflag heq
      split at hp
      · simp at hp
      · simp only [Option.some.injEq, Prod.mk.injEq] at hp
        obtain ⟨rfl, -⟩ := hp
        exact readPhase_reader_mono heq h1
      · rename_i st2 wflag heq2
        have hr2 : st2.reader = st1.reader := writePhase_reader heq2
        split at hp <;>
        · simp only [Option.some.injEq, Prod.mk.injEq] at hp
          obtain ⟨rfl, -⟩ := hp
          exact readPhase_reader_mono heq (hr2 ▸ h1)
  · intro st rr rr' wr h
    simp only [poll, readPhase_no_reader h]
  · intro st rr wr h hcap hw hl
    have hRR := heads_RR_of_write_len_zero hcap hw hl
    have h1 := readPhase_no_reader h rr
    have h2 := writePhase_empty hl wr
    have hcond : (!st.reader && !write_ready st.heads) = true := by
      rw [h, hRR]
      rfl
    simp only [poll, h1, h2, hcond, if_true]

theorem eof_completion_witness :
    (c6St.reader = true → c6St.reader = true) ∧
    poll c6St .pending .interrupted = poll c6St .fatal .interrupted ∧
    poll c6St .pending .pending = some (c6St, .Ready none) :=
  ⟨eof_completion.1 c6St c6St .pending .pending (.Ready none) rfl,
   eof_completion.2.1 c6St .pending .fatal .interrupted rfl,
   eof_completion.2.2 c6St .pending .pending rfl (by decide) rfl (by decide)⟩

/-- C7: whenever the sink reports zero bytes accepted while the filled view
presented to it (re-derived after the read half) was non-empty, the poll
immediately returns the `WriteClosedEarly` error — the future is finished,
so no further read or write is issued. -/
theorem write_closed_early (st st1 : Fwd) (rr : ReadResp) (f : Bool)
    (hrp : readPhase st rr = some (.ok (st1, f)))
    (hlen : 0 < pair_len (get_buffers st1.cap st1.heads).write) :
    poll st rr (.accepted 0) = some (st1, .Ready (some .WriteClosedEarly)) := by
  have hwp : writePhase st1 (.accepted 0) = some (.error .WriteClosedEarly) := by
    simp [writePhase, hlen]
  simp only [poll, hrp, hwp]

theorem write_closed_early_witness :
    poll c7St .pending (.accepted 0) = some (c7St, .Ready (some .WriteClosedEarly)) :=
  write_closed_early c7St c7St .pending false rfl (by decide)

theorem readPhase_pend (st : Fwd) : readPhase st .pending = some (.ok (st, false)) := by
  simp only [readPhase]
  split
  · split
    · rfl
    · rfl
  · rfl

theorem readPhase_wb (st : Fwd) : readPhase st .wouldBlock = some (.ok (st, false)) := by
  simp only [readPhase]
  split
  · split
    · rfl
    · rfl
  · rfl

theorem readPhase_intr_hit {st : Fwd} (hr : st.reader = true)
    (hl : 0 < pair_len (get_buffers st.cap st.heads).read) :
    readPhase st .interrupted = some (.ok (st, true)) := by
  simp [readPhase, hr, hl]

theorem readPhase_transient (st : Fwd) (rr : ReadResp)
    (htr : rr = .wouldBlock ∨ rr = .interrupted) :
    ∃ f, readPhase st rr = some (.ok (st, f)) := by
  rcases htr with rfl | rfl
  · exact ⟨false, readPhase_wb st⟩
  · cases hb : st.reader with
    | false => exact ⟨false, readPhase_no_reader hb _⟩
    | true =>
      by_cases hl : 0 < pair_len (get_buffers st.cap st.heads).read
      · exact ⟨true, readPhase_intr_hit hb hl⟩
      · refine ⟨false, ?_⟩
        simp [readPhase, hb, hl]

theorem writePhase_pend (st : Fwd) : writePhase st .pending = some (.ok (st, false)) := by
  simp only [writePhase]
  split
  · rfl
  · rfl

theorem writePhase_wb (st : Fwd) : writePhase st .wouldBlock = some (.ok (st, false)) := by
  simp only [writePhase]
  split
  · rfl
  · rfl

theorem writePhase_intr_hit {st : Fwd}
    (hl : 0 < pair_len (get_buffers st.cap st.heads).write) :
    writePhase st .interrupted = some (.ok (st, true)) := by
  simp [writePhase, hl]

theorem writePhase_transient (st : Fwd) (wr : WriteResp)
    (htr : wr = .pending ∨ wr = .wouldBlock ∨ wr = .interrupted) :
    ∃ f, writePhase st wr = some (.ok (st, f)) := by
  rcases htr with rfl | rfl | rfl
  · exact ⟨false, writePhase_pend st⟩
  · exact ⟨false, writePhase_wb st⟩
  · by_cases hl : 0 < pair_len (get_buffers st.cap st.heads).write
    · exact ⟨true, writePhase_intr_hit hl⟩
    · refine ⟨false, ?_⟩
      simp [writePhase, hl]

theorem read_ready_of_len {cap : Nat} {h : BufferHeads}
    (hl : 0 < pair_len (get_buffers cap h).read) : read_ready h = true := by
  cases h with
  | ReadReady => rfl
  | WriteReady p =>
    rw [gb_WR] at hl
    simp [pair_len] at hl
  | DuplexReady w r => rfl

theorem write_ready_of_len {cap : Nat} {h : BufferHeads}
    (hl : 0 < pair_len (get_buffers cap h).write) : write_ready h = true := by
  cases h with
  | ReadReady =>
    rw [gb_RR] at hl
    simp [pair_len] at hl
  | WriteReady p => rfl
  | DuplexReady w r => rfl

/-- C8: (i) when both endpoints report only transient conditions
(would-block / interrupted), the poll leaves the state — storage, cursors
and both logs — untouched and never surfaces an error; (ii) an interrupted
read with the reader present and free space available yields `Pending` with
an immediate re-schedule request; (iii) an interrupted write with data
buffered likewise yields `Pending` with an immediate re-schedule request. -/
theorem transient_conditions :
    (∀ (st st' : Fwd) (rr : ReadResp) (wr : WriteResp) (out : PollOut),
      (rr = .wouldBlock ∨ rr = .interrupted) →
      (wr = .wouldBlock ∨ wr = .interrupted) →
      poll st rr wr = some (st', out) → st' = st ∧ ∀ e, out ≠ .Ready (some e)) ∧
    (∀ (st : Fwd) (wr : WriteResp), st.reader = true →
      0 < pair_len (get_buffers st.cap st.heads).read →
      (wr = .pending ∨ wr = .wouldBlock ∨ wr = .interrupted) →
      poll st .interrupted wr = some (st, .Pending true)) ∧
    (∀ (st : Fwd), 0 < pair_len (get_buffers st.cap st.heads).write →
      poll st .pending .interrupted = some (st, .Pending true)) := by
  refine ⟨?_, ?_, ?_⟩
  · intro st st' rr wr out htr htw hp
    obtain ⟨f1, h1⟩ := readPhase_transient st rr htr
    obtain ⟨f2, h2⟩ := writePhase_transient st wr (Or.inr htw)
    simp only [poll, h1, h2] at hp
    split at hp
    · simp only [Option.some.injEq, Prod.mk.injEq] at hp
      obtain ⟨rfl, rfl⟩ := hp
      exact ⟨rfl, by simp⟩
    · simp only [Option.some.injEq, Prod.mk.injEq] at hp
      obtain ⟨rfl, rfl⟩ := hp
      exact ⟨rfl, by simp⟩
  · intro st wr hr hl htw
    have h1 := readPhase_intr_hit hr hl
    obtain ⟨f2, h2⟩ := writePhase_transient st wr htw
    have hready : read_ready st.heads = true := read_ready_of_len hl
    simp only [poll, h1, h2, hr, hready]
    simp
  · intro st hl
    have h1 := readPhase_pend st
    have h2 := writePhase_intr_hit hl
    have hready : write_ready st.heads = true := write_ready_of_len hl
    simp only [poll, h1, h2, hready]
    simp

theorem transient_conditions_witness :
    (c6St = c6St ∧ ∀ e, PollOut.Ready none ≠ PollOut.Ready (some e)) ∧
    poll c8St .interrupted .pending = some (c8St, .Pending true) ∧
    poll c7St .pending .interrupted = some (c7St, .Pending true) :=
  ⟨transient_conditions.1 c6St c6St .wouldBlock .interrupted (.Ready none)
      (by simp) (by simp) rfl,
   transient_conditions.2.1 c8St .pending rfl (by decide) (by simp),
   transient_conditions.2.2 c7St (by decide)⟩

/-- C9 counterexample: in the capacity-4 scenario, after the 4-byte read the
buffer is *Full* (`WriteReady 0`) and the reader is still present; offering
end-of-input in that state is ignored (a full buffer suppresses the read
attempt entirely), so the claimed direct transition Full → Draining cannot
occur — at least one write must drain space before end-of-input can be
observed. -/
theorem c9_full_blocks_eof :
    run (Fwd.init 4 (fun _ => 0)) c9Ticks1 = some (c9St1, none) ∧
    c9St1.reader = true ∧ c9St1.heads = .WriteReady 0 ∧
    readPhase c9St1 (.chunk []) = some (.ok (c9St1, false)) :=
  ⟨rfl, rfl, rfl, rfl⟩

/-- C9 (amended): with capacity 4, a source yielding 4 bytes then
end-of-input, and a sink that accepts the bytes, the combined state passes
through Empty → (read) → Full → (writes) → Empty → Draining → Done: the
drain precedes the Draining transition, because end-of-input cannot be
observed while the buffer is Full. -/
theorem c9_scenario :
    runView (Fwd.init 4 (fun _ => 0)) c9Ticks1 =
      some ((true, .WriteReady 0, [1, 2, 3, 4], []), none) ∧
    runView (Fwd.init 4 (fun _ => 0)) c9Ticks2 =
      some ((true, .ReadReady, [1, 2, 3, 4], [1, 2, 3, 4]), none) ∧
    runView (Fwd.init 4 (fun _ => 0)) c9Ticks3 =
      some ((false, .ReadReady, [1, 2, 3, 4], [1, 2, 3, 4]), some none) :=
  ⟨rfl, rfl, rfl⟩

/-- C10: with zero-length backing storage, every poll of a freshly
constructed `Forwarder` consults neither endpoint (the result does not
depend on the responses), changes nothing, returns `Pending`, and never
wakes the waker; consequently no run of any length ever completes. -/
theorem zero_capacity_stalls :
    (∀ (σ : Nat → Nat) (rr : ReadResp) (wr : WriteResp),
      poll (Fwd.init 0 σ) rr wr = some (Fwd.init 0 σ, .Pending false)) ∧
    (∀ (σ : Nat → Nat) (ticks : List (ReadResp × WriteResp)),
      run (Fwd.init 0 σ) ticks = some (Fwd.init 0 σ, none)) := by
  constructor
  · intro σ rr wr
    rfl
  · intro σ ticks
    induction ticks with
    | nil => rfl
    | cons t rest ih =>
      obtain ⟨rr, wr⟩ := t
      have hp : poll (Fwd.init 0 σ) rr wr = some (Fwd.init 0 σ, .Pending false) := rfl
      simp only [run, hp]
      exact ih
